import Mathlib

/-
  Verification of the simple_disk_cache repository.

  Shallow embedding of src/src/lib.rs, src/src/config.rs and
  src/src/encoding.rs.  Machine integers (u64, u32, usize) are modelled as
  Nat; reachable states never exercise u64 overflow or underflow.  The
  filesystem is modelled as an id-indexed association list of data files
  (the path of a data file is injective in the entry id, since the file
  name contains the full id) together with the decoded contents of the
  metadata ("ledger") file.  Rust panics (unwrap of None in cleanup,
  remainder by zero in data_file_path) are modelled as distinguished
  abnormal outcomes, distinct from the CacheError values the code returns.

  The addressable_queue crate and the bincode / serde_json codecs are
  external dependencies, not code of this repository; the spec declares
  them collaborators specified by their interfaces.  Their models below
  carry a "Modelled from the spec" note and follow the spec's words.
-/

deriving instance DecidableEq for Except

namespace SimpleDiskCache

/-- From src/src/encoding.rs (`DataEncoding`): the two supported payload
encodings. -/
inductive DataEncoding
  | bincode
  | json
  deriving DecidableEq

/-- From src/src/encoding.rs (`DataEncoding::extension`): the stable file
extension tag of each encoding. -/
def DataEncoding.fileExt : DataEncoding → String
  | DataEncoding.bincode => "bincode"
  | DataEncoding.json => "json"

/-- From src/src/encoding.rs (`DataEncoding::filename`): basename plus
extension. -/
def DataEncoding.fname (e : DataEncoding) (basename : String) : String :=
  basename ++ "." ++ e.fileExt

/-- From src/src/config.rs (`CacheStrategy`): only LRU exists. -/
inductive CacheStrategy
  | lru
  deriving DecidableEq

/-- From src/src/config.rs (`CacheConfig`), together with the
`subdirs_per_level` field that src/src/lib.rs (`data_file_path`) and the
tests (src/tests/cache.rs) use; the copy of the struct in the given
config.rs predates that field, the spec (§6) records it as `u32`. -/
structure CacheConfig where
  max_bytes : Nat
  encoding : DataEncoding
  strategy : CacheStrategy
  subdirs_per_level : Nat
  deriving DecidableEq

/-- From src/src/lib.rs (`CacheEntry`): size in bytes and entry id. -/
structure CacheEntry where
  size : Nat
  id : Nat
  deriving DecidableEq

/-- The ordered key ledger.  Modelled from the spec (§4.2): the
addressable_queue crate is an external dependency; the spec specifies an
ordered key → descriptor mapping, head = least recently
inserted-or-accessed, tail = most recent.  Head is the first list
element. -/
abbrev Queue (K : Type) := List (K × CacheEntry)

/-- Modelled from the spec (§4.2, `remove_by_key`): removes and returns
the descriptor if present, else signals absence; the rest of the queue
keeps its order. -/
def Queue.removeKey {K : Type} [DecidableEq K] :
    Queue K → K → Option CacheEntry × Queue K
  | [], _ => (none, [])
  | (k', e) :: rest, k =>
      if k' = k then (some e, rest)
      else ((Queue.removeKey rest k).1, (k', e) :: (Queue.removeKey rest k).2)

/-- Modelled from the spec (§4.2, `insert_or_move_to_tail`): if the key
exists, remove its old position first; append at tail.  The cache always
calls it with the key already removed, so this coincides with a plain
append there. -/
def Queue.insertTail {K : Type} [DecidableEq K]
    (q : Queue K) (k : K) (e : CacheEntry) : Queue K :=
  (Queue.removeKey q k).2 ++ [(k, e)]

/-- Modelled from the spec (§4.2, `remove_head`): removes and returns the
least-recently-used pair; signals absence if empty. -/
def Queue.removeHead {K : Type} :
    Queue K → Option ((K × CacheEntry) × Queue K)
  | [] => none
  | x :: rest => some (x, rest)

/-- Keys of a queue, in order. -/
def Queue.keys {K : Type} (q : Queue K) : List K :=
  q.map Prod.fst

/-- Entry ids of a queue, in order. -/
def Queue.ids {K : Type} (q : Queue K) : List Nat :=
  q.map (fun p => p.2.id)

/-- Sum of the sizes of all entries of a queue. -/
def sumSizes {K : Type} (q : Queue K) : Nat :=
  (q.map (fun p => p.2.size)).sum

/-- From src/src/lib.rs (`Metadata`): the persisted ledger. -/
structure Metadata (K : Type) where
  current_size : Nat
  counter : Nat
  entries : Queue K
  deriving DecidableEq

/-- The id-indexed store of on-disk data files: a data file's path is
injective in its entry id (the file name contains the full id), so the
payload area of the cache directory is represented as an association list
from id to file contents (abstract bytes, as Nat). -/
abbrev Disk := List (Nat × List Nat)

/-- Look up the data file of an entry id. -/
def diskGet : Disk → Nat → Option (List Nat)
  | [], _ => none
  | (j, bs) :: rest, i => if j = i then some bs else diskGet rest i

/-- Delete the data file of an entry id. -/
def diskErase : Disk → Nat → Disk
  | [], _ => []
  | (j, bs) :: rest, i =>
      if j = i then diskErase rest i else (j, bs) :: diskErase rest i

/-- Create/truncate and write the data file of an entry id
(File::create followed by a full write). -/
def diskSet (d : Disk) (i : Nat) (bs : List Nat) : Disk :=
  (i, bs) :: diskErase d i

/-- The on-disk world of one cache directory: the decoded contents of the
metadata file `cache_data.{ext}` (none when the file is absent) and the
sharded data files.  Directory creation is idempotent and not tracked. -/
structure World (K : Type) where
  metaFile : Option (Metadata K)
  disk : Disk
  deriving DecidableEq

/-- From src/src/lib.rs (`SimpleCache`): configuration, in-memory
metadata, root directory, plus the on-disk world it owns. -/
structure CacheState (K : Type) where
  config : CacheConfig
  metadata : Metadata K
  data_dir : String
  world : World K
  deriving DecidableEq

/-- The payload codec for values of type V.  Modelled from the spec (§1,
§4.1): the concrete bincode / serde_json implementations are out of
scope; the core needs "serialize a value to a byte sink, returning bytes
written" and "deserialize a value from a byte source".  `enc` gives the
byte string a value serializes to, `dec` the (fallible) decoding. -/
structure Codec (V : Type) where
  enc : V → List Nat
  dec : List Nat → Option V

/-- From src/src/lib.rs (`CacheError`): error cases, payloads elided. -/
inductive CacheError
  | readMetadata
  | deserializeMetadata
  | serializeMetadata
  | readCacheFile
  | deserializeValue
  | serializeValue
  | createDir
  | createFile
  | writeFile
  | removeFile
  deriving DecidableEq

/-- Abnormal outcome of an operation: either a returned `CacheError`, or
a Rust panic (remainder by zero in `data_file_path` when
`subdirs_per_level = 0`; `unwrap` of None in `cleanup`). -/
inductive Outcome
  | cacheErr : CacheError → Outcome
  | panicDivZero
  | panicUnwrapNone
  deriving DecidableEq

/-- From src/src/lib.rs (`data_file_path`): `subdir_1 = id % s`,
`subdir_2 = (id / s) % s` with `s = subdirs_per_level`, path
`root/subdir_1/subdir_2/data_{id}.{ext}`.  With `s = 0` the remainder
operation panics in Rust, modelled as `panicDivZero`.  The
`create_dir_all` call is idempotent directory creation, modelled as
always succeeding. -/
def dataFilePath (cfg : CacheConfig) (root : String) (entry_id : Nat) :
    Except Outcome String :=
  if cfg.subdirs_per_level = 0 then Except.error Outcome.panicDivZero
  else
    let s := cfg.subdirs_per_level
    let subdir_1 := entry_id % s
    let subdir_2 := (entry_id / s) % s
    Except.ok (root ++ "/" ++ toString subdir_1 ++ "/" ++ toString subdir_2
      ++ "/data_" ++ toString entry_id ++ "." ++ cfg.encoding.fileExt)

/-- The §4.3 path rule, written from the spec's words: final path =
`root/(id mod S)/((id div S) mod S)/data_{id}.{extension}`. -/
def specDataFilePath (root : String) (S : Nat) (ext : String) (id : Nat) :
    String :=
  root ++ "/" ++ toString (id % S) ++ "/" ++ toString ((id / S) % S)
    ++ "/data_" ++ toString id ++ "." ++ ext

/-- From src/src/lib.rs (`cleanup`, lines 185-193), the loop flattened
over (entries, current_size, disk): while `current_size > max_bytes`,
`remove_head().unwrap()` (panic on empty queue), subtract the entry's
size, compute its path (panic when `subdirs_per_level = 0`), remove its
file (error when absent).  Partial mutations persist on abnormal exit,
as through `&mut self` in Rust. -/
def cleanupLoop {K : Type} (maxB sdl : Nat) :
    Queue K → Nat → Disk → Except Outcome Unit × Queue K × Nat × Disk
  | q, size, d =>
    if size ≤ maxB then (Except.ok (), q, size, d)
    else
      match q with
      | [] => (Except.error Outcome.panicUnwrapNone, q, size, d)
      | (_, e) :: rest =>
        let size' := size - e.size
        if sdl = 0 then (Except.error Outcome.panicDivZero, rest, size', d)
        else
          match diskGet d e.id with
          | none => (Except.error (Outcome.cacheErr CacheError.removeFile),
              rest, size', d)
          | some _ => cleanupLoop maxB sdl rest size' (diskErase d e.id)

/-- From src/src/lib.rs (`cleanup`): run the eviction loop on the
state's ledger, size counter and disk. -/
def cleanup {K : Type} (s : CacheState K) :
    Except Outcome Unit × CacheState K :=
  match cleanupLoop s.config.max_bytes s.config.subdirs_per_level
      s.metadata.entries s.metadata.current_size s.world.disk with
  | (r, q', size', d') =>
    (r, { s with
          metadata :=
            { s.metadata with entries := q', current_size := size' },
          world := { s.world with disk := d' } })

/-- From src/src/lib.rs (`write_metadata`): re-encode the full in-memory
ledger over the metadata file.  File creation and serialization are
modelled as succeeding. -/
def writeMetadata {K : Type} (s : CacheState K) : CacheState K :=
  { s with world := { s.world with metaFile := some s.metadata } }

/-- From src/src/lib.rs (`get`, lines 91-109): `remove_key`; on absence
return Ok(None); on presence resolve the path (possible div-by-zero
panic), open the data file (absence is a ReadCacheFile error), decode it
(failure is a DeserializeValue error) — on either failure the key stays
removed from the in-memory ledger and nothing else changes — then
re-insert the same descriptor at the tail, persist the ledger and return
the value. -/
def get {K V : Type} [DecidableEq K] (c : Codec V) (k : K)
    (s : CacheState K) : Except Outcome (Option V) × CacheState K :=
  match Queue.removeKey s.metadata.entries k with
  | (none, _) => (Except.ok none, s)
  | (some item, rest) =>
    let s1 : CacheState K :=
      { s with metadata := { s.metadata with entries := rest } }
    match dataFilePath s.config s.data_dir item.id with
    | Except.error o => (Except.error o, s1)
    | Except.ok _ =>
      match diskGet s.world.disk item.id with
      | none => (Except.error (Outcome.cacheErr CacheError.readCacheFile), s1)
      | some bs =>
        match c.dec bs with
        | none =>
          (Except.error (Outcome.cacheErr CacheError.deserializeValue), s1)
        | some v =>
          let md : Metadata K :=
            { s.metadata with entries := Queue.insertTail rest k item }
          (Except.ok (some v),
            writeMetadata { s with metadata := md })

/-- From src/src/lib.rs (`put`, lines 114-151): remove the key to reuse
its id, or allocate `counter` and increment it; resolve the path
(possible div-by-zero panic); create and write the data file, the byte
count being the length of the encoding; insert `{size, id}` at the tail;
add the byte count to `current_size` (note: the removed old entry's size
is not subtracted); run `cleanup`; persist the ledger. -/
def put {K V : Type} [DecidableEq K] (c : Codec V) (k : K) (v : V)
    (s : CacheState K) : Except Outcome Unit × CacheState K :=
  match Queue.removeKey s.metadata.entries k with
  | (old, rest) =>
    let idc : Nat × Nat :=
      match old with
      | some entry => (entry.id, s.metadata.counter)
      | none => (s.metadata.counter, s.metadata.counter + 1)
    match dataFilePath s.config s.data_dir idc.1 with
    | Except.error o =>
      (Except.error o,
        { s with metadata :=
            { s.metadata with entries := rest, counter := idc.2 } })
    | Except.ok _ =>
      let bytes := (c.enc v).length
      let md1 : Metadata K :=
        { current_size := s.metadata.current_size + bytes,
          counter := idc.2,
          entries := Queue.insertTail rest k { size := bytes, id := idc.1 } }
      let s1 : CacheState K :=
        { s with metadata := md1,
                 world := { s.world with
                             disk := diskSet s.world.disk idc.1 (c.enc v) } }
      match cleanup s1 with
      | (Except.error o, s2) => (Except.error o, s2)
      | (Except.ok _, s2) => (Except.ok (), writeMetadata s2)

/-- From src/src/lib.rs (`initialize`, lines 54-85): create the root
directory if absent; if the metadata file exists load it as the ledger,
otherwise start from the empty ledger (`current_size = 0, counter = 0`).
File read and decode of the metadata file are modelled as succeeding, so
the model returns Ok on every input; no validation of the configuration
(in particular of `subdirs_per_level`) is performed, exactly as in the
source. -/
def initCache {K : Type} (cfg : CacheConfig) (data_dir : String)
    (w : World K) : Except Outcome (CacheState K) :=
  let md : Metadata K :=
    match w.metaFile with
    | some m => m
    | none => { current_size := 0, counter := 0, entries := [] }
  Except.ok { config := cfg, metadata := md, data_dir := data_dir,
              world := w }

/-- The §3 ledger size invariant, written from the spec's words:
`current_size` equals the sum of the sizes of all entries currently in
the ordered mapping. -/
def sizeInv {K : Type} (m : Metadata K) : Prop :=
  m.current_size = sumSizes m.entries

instance {K : Type} (m : Metadata K) : Decidable (sizeInv m) := by
  unfold sizeInv; infer_instance

/-- Well-formedness of reachable ledgers: keys are distinct, entry ids
are distinct, and every id is below the allocation counter. -/
def WF {K : Type} (m : Metadata K) : Prop :=
  (Queue.keys m.entries).Nodup ∧ (Queue.ids m.entries).Nodup ∧
    ∀ p ∈ m.entries, p.2.id < m.counter

instance {K : Type} [DecidableEq K] (m : Metadata K) : Decidable (WF m) := by
  unfold WF; infer_instance

/-! ## Operation traces

The public mutating surface of the cache is `put` and `get` (§6).  An
operation trace models an arbitrary sequence of such calls issued by a
client between two points in time; each call threads the state it
leaves behind (the Rust methods take `&mut self`, so the state advances
even when a call returns an error). -/

/-- One public cache operation. -/
inductive Op (K V : Type)
  | put : K → V → Op K V
  | get : K → Op K V
  deriving DecidableEq

/-- Run one operation, keeping the state it leaves behind (successful
or not), as `&mut self` does. -/
def applyOp {K V : Type} [DecidableEq K] (c : Codec V) (op : Op K V)
    (s : CacheState K) : CacheState K :=
  match op with
  | Op.put k v => (put c k v s).2
  | Op.get k => (get c k s).2

/-- Run a sequence of operations left to right. -/
def runOps {K V : Type} [DecidableEq K] (c : Codec V)
    (ops : List (Op K V)) (s : CacheState K) : CacheState K :=
  ops.foldl (fun t op => applyOp c op t) s

/-- Key k is live with value v in state s: the ledger holds an entry
for k whose data file is on disk and contains the encoding of v. -/
def tracks {K V : Type} (c : Codec V) (k : K) (v : V)
    (s : CacheState K) : Prop :=
  ∃ e : CacheEntry, (k, e) ∈ s.metadata.entries ∧
    diskGet s.world.disk e.id = some (c.enc v)

/-! ## Byte-counting sink adapter (src/src/encoding.rs) -/

/-- An abstract byte sink (the `Write` trait): a write takes the sink
state and a buffer, and either fails or returns the new state together
with the number of bytes it actually accepted. -/
structure Sink (σ : Type) where
  write : σ → List Nat → Option (σ × Nat)

/-- From src/src/encoding.rs (`WriteCounter`): a sink state paired with
a running count of bytes written. -/
structure WriteCounter (σ : Type) where
  state : σ
  counter : Nat

/-- From src/src/encoding.rs (`WriteCounter::new`). -/
def WriteCounter.new {σ : Type} (s : σ) : WriteCounter σ :=
  { state := s, counter := 0 }

/-- From src/src/encoding.rs (`impl Write for WriteCounter`): forward
the write to the wrapped sink and add the bytes it reports to the
counter. -/
def WriteCounter.write {σ : Type} (w : Sink σ) (wc : WriteCounter σ)
    (buf : List Nat) : Option (WriteCounter σ × Nat) :=
  match w.write wc.state buf with
  | none => none
  | some (s', len) => some ({ state := s', counter := wc.counter + len }, len)

/-- A serializer run is its sequence of write calls.  Modelled from the
spec (§1, §4.1): the concrete codec implementations are out of scope,
the core hands the codec a sink and the codec issues writes against it.
This folds those writes through the counting adapter. -/
def writeChunks {σ : Type} (w : Sink σ) :
    List (List Nat) → WriteCounter σ → Option (WriteCounter σ)
  | [], wc => some wc
  | c :: cs, wc =>
    match WriteCounter.write w wc c with
    | none => none
    | some (wc', _) => writeChunks w cs wc'

/-- From src/src/encoding.rs (`DataEncoding::serialize`): wrap the sink
in a `WriteCounter`, run the serializer's writes through it, and return
the final sink state with the counter (the reported byte count).  Both
encodings dispatch to this same wrapping. -/
def serializeCount {σ : Type} (w : Sink σ) (chunks : List (List Nat))
    (s : σ) : Option (σ × Nat) :=
  match writeChunks w chunks (WriteCounter.new s) with
  | none => none
  | some wc => some (wc.state, wc.counter)

/-- Ground truth for how many bytes a write sequence puts into the bare
sink: run the writes directly against the sink, accumulating the byte
counts the sink itself reports. -/
def sinkRunTotal {σ : Type} (w : Sink σ) :
    List (List Nat) → σ → Nat → Option (σ × Nat)
  | [], s, acc => some (s, acc)
  | c :: cs, s, acc =>
    match w.write s c with
    | none => none
    | some (s', n) => sinkRunTotal w cs s' (acc + n)

/-! ## Concrete instances used by the witnesses -/

/-- A concrete codec for Nat values obeying the §4.1 round-trip
contract: a value v encodes to v zero-bytes, decoding reads the
length. -/
def natCodec : Codec Nat :=
  { enc := fun v => List.replicate v 0,
    dec := fun l => some l.length }

/-- A concrete configuration: budget 10 bytes, three subdirectories per
level. -/
def cfg3 : CacheConfig :=
  { max_bytes := 10, encoding := DataEncoding.json,
    strategy := CacheStrategy.lru, subdirs_per_level := 3 }

/-- A concrete configuration with a large budget (no eviction in the
scenarios below). -/
def cfg100 : CacheConfig :=
  { max_bytes := 100, encoding := DataEncoding.bincode,
    strategy := CacheStrategy.lru, subdirs_per_level := 3 }

/-- The invalid configuration of §4.3: `subdirs_per_level = 0`. -/
def cfg0 : CacheConfig :=
  { max_bytes := 10, encoding := DataEncoding.json,
    strategy := CacheStrategy.lru, subdirs_per_level := 0 }

/-- A freshly initialized cache state over an empty directory. -/
def emptyState (cfg : CacheConfig) : CacheState Nat :=
  { config := cfg,
    metadata := { current_size := 0, counter := 0, entries := [] },
    data_dir := "root",
    world := { metaFile := none, disk := [] } }

/-- A concrete over-budget state (17 bytes tracked against a 10-byte
budget, three live entries with their data files present): cleanup must
evict the two oldest entries. -/
def sOver : CacheState Nat :=
  { config := cfg3,
    metadata :=
      { current_size := 17, counter := 3,
        entries := [(1, { size := 6, id := 0 }), (2, { size := 6, id := 1 }),
          (3, { size := 5, id := 2 })] },
    data_dir := "root",
    world := { metaFile := none, disk := [(0, [7]), (1, [7]), (2, [7])] } }

/-- A concrete state whose single ledger entry (key 9, id 2) has no
backing data file on disk, and whose persisted ledger file still
contains that key: a `get` of key 9 fails to open the file. -/
def sBroken : CacheState Nat :=
  { config := cfg3,
    metadata :=
      { current_size := 4, counter := 3,
        entries := [(9, { size := 4, id := 2 })] },
    data_dir := "root",
    world :=
      { metaFile := some
          { current_size := 4, counter := 3,
            entries := [(9, { size := 4, id := 2 })] },
        disk := [] } }

/-! ## Queue lemmas -/

theorem removeKey_none_eq {K : Type} [DecidableEq K] (q : Queue K) (k : K)
    {q' : Queue K} (h : Queue.removeKey q k = (none, q')) : q' = q := by
  induction q generalizing q' with
  | nil =>
    simp only [Queue.removeKey, Prod.mk.injEq, true_and] at h
    exact h.symm
  | cons p rest ih =>
    obtain ⟨k', e⟩ := p
    simp only [Queue.removeKey] at h
    by_cases hk : k' = k
    · simp [hk] at h
    · rw [if_neg hk] at h
      rcases hr : Queue.removeKey rest k with ⟨r1, r2⟩
      rw [hr] at h
      simp only [Prod.mk.injEq] at h
      obtain ⟨h1, h2⟩ := h
      subst h1
      rw [← h2, ih hr]

theorem removeKey_none_not_mem {K : Type} [DecidableEq K] (q : Queue K)
    (k : K) {q' : Queue K} (h : Queue.removeKey q k = (none, q')) :
    k ∉ Queue.keys q := by
  induction q generalizing q' with
  | nil => simp [Queue.keys]
  | cons p rest ih =>
    obtain ⟨k', e⟩ := p
    simp only [Queue.removeKey] at h
    by_cases hk : k' = k
    · simp [hk] at h
    · rw [if_neg hk] at h
      rcases hr : Queue.removeKey rest k with ⟨r1, r2⟩
      rw [hr] at h
      simp only [Prod.mk.injEq] at h
      obtain ⟨h1, h2⟩ := h
      subst h1
      simp only [Queue.keys, List.map_cons, List.mem_cons]
      rintro (rfl | hmem)
      · exact hk rfl
      · exact ih hr hmem

theorem removeKey_not_mem {K : Type} [DecidableEq K] (q : Queue K) (k : K)
    (h : k ∉ Queue.keys q) : Queue.removeKey q k = (none, q) := by
  induction q with
  | nil => simp [Queue.removeKey]
  | cons p rest ih =>
    obtain ⟨k', e⟩ := p
    simp only [Queue.keys, List.map_cons, List.mem_cons] at h
    push_neg at h
    have hk : ¬ k' = k := fun hh => h.1 hh.symm
    have hrest := ih (by simpa [Queue.keys] using h.2)
    simp [Queue.removeKey, hk, hrest]

theorem removeKey_some_eq {K : Type} [DecidableEq K] (q : Queue K) (k : K)
    {e : CacheEntry} {q' : Queue K}
    (h : Queue.removeKey q k = (some e, q')) :
    ∃ l₁ l₂, q = l₁ ++ (k, e) :: l₂ ∧ q' = l₁ ++ l₂ ∧
      k ∉ Queue.keys l₁ := by
  induction q generalizing q' with
  | nil => simp [Queue.removeKey] at h
  | cons p rest ih =>
    obtain ⟨k', e'⟩ := p
    simp only [Queue.removeKey] at h
    by_cases hk : k' = k
    · rw [if_pos hk] at h
      simp only [Prod.mk.injEq, Option.some.injEq] at h
      obtain ⟨h1, h2⟩ := h
      subst hk
      subst h1
      exact ⟨[], rest, by simp, by simp [h2.symm], by simp [Queue.keys]⟩
    · rw [if_neg hk] at h
      rcases hr : Queue.removeKey rest k with ⟨r1, r2⟩
      rw [hr] at h
      simp only [Prod.mk.injEq] at h
      obtain ⟨h1, h2⟩ := h
      subst h1
      obtain ⟨l₁, l₂, hq, hq', hnk⟩ := ih hr
      refine ⟨(k', e') :: l₁, l₂, by simp [hq], by rw [← h2, hq']; simp, ?_⟩
      simp only [Queue.keys, List.map_cons, List.mem_cons]
      push_neg
      exact ⟨fun hh => hk hh.symm, by simpa [Queue.keys] using hnk⟩

theorem removeKey_append_single {K : Type} [DecidableEq K] (q : Queue K)
    (k : K) (e : CacheEntry) (h : k ∉ Queue.keys q) :
    Queue.removeKey (q ++ [(k, e)]) k = (some e, q) := by
  induction q with
  | nil => simp [Queue.removeKey]
  | cons p rest ih =>
    obtain ⟨k', e'⟩ := p
    simp only [Queue.keys, List.map_cons, List.mem_cons] at h
    push_neg at h
    have hk : ¬ k' = k := fun hh => h.1 hh.symm
    have hrest := ih (by simpa [Queue.keys] using h.2)
    simp [Queue.removeKey, hk, hrest]

/-! ## Disk lemmas -/

theorem diskGet_erase (d : Disk) (i j : Nat) :
    diskGet (diskErase d i) j = if j = i then none else diskGet d j := by
  induction d with
  | nil => simp [diskErase, diskGet]
  | cons p rest ih =>
    obtain ⟨a, bs⟩ := p
    simp only [diskErase]
    by_cases ha : a = i
    · rw [if_pos ha, ih]
      by_cases hj : j = i
      · simp [hj]
      · have haj : ¬ a = j := fun hh => hj (hh ▸ ha)
        simp [hj, diskGet, haj]
    · rw [if_neg ha]
      simp only [diskGet]
      by_cases haj : a = j
      · have hj : ¬ j = i := fun hh => ha (haj.trans hh)
        rw [if_pos haj, if_neg hj, if_pos haj]
      · rw [if_neg haj, ih]
        by_cases hj : j = i
        · simp [hj]
        · simp [hj, haj]

theorem diskGet_set (d : Disk) (i j : Nat) (bs : List Nat) :
    diskGet (diskSet d i bs) j = if j = i then some bs else diskGet d j := by
  by_cases hj : j = i
  · simp [diskSet, diskGet, hj]
  · have hij : ¬ i = j := fun hh => hj hh.symm
    simp only [diskSet, diskGet, hij, if_neg, hj]
    simpa [hj] using diskGet_erase d i j

/-! ## Cleanup-loop lemmas -/

theorem sumSizes_nil {K : Type} : sumSizes ([] : Queue K) = 0 := rfl

theorem sumSizes_cons {K : Type} (p : K × CacheEntry) (q : Queue K) :
    sumSizes (p :: q) = p.2.size + sumSizes q := by
  simp [sumSizes]

theorem sumSizes_pair {K : Type} (k : K) (e : CacheEntry) (q : Queue K) :
    sumSizes ((k, e) :: q) = e.size + sumSizes q := by
  simp [sumSizes]

theorem cleanupLoop_ok_le {K : Type} {maxB sdl : Nat} {q : Queue K}
    {size : Nat} {d : Disk} {u : Unit} {q' : Queue K} {size' : Nat}
    {d' : Disk}
    (h : cleanupLoop maxB sdl q size d = (Except.ok u, q', size', d')) :
    size' ≤ maxB := by
  induction q generalizing size d with
  | nil =>
    simp only [cleanupLoop] at h
    by_cases hs : size ≤ maxB
    · rw [if_pos hs] at h
      simp only [Prod.mk.injEq] at h
      omega
    · rw [if_neg hs] at h
      simp at h
  | cons p rest ih =>
    obtain ⟨k₀, e⟩ := p
    simp only [cleanupLoop] at h
    by_cases hs : size ≤ maxB
    · rw [if_pos hs] at h
      simp only [Prod.mk.injEq] at h
      omega
    · rw [if_neg hs] at h
      by_cases hsdl : sdl = 0
      · simp [hsdl] at h
      · rw [if_neg hsdl] at h
        rcases hd : diskGet d e.id with _ | bs
        · rw [hd] at h
          simp at h
        · rw [hd] at h
          exact ih h

theorem cleanupLoop_ok_spec {K : Type} {maxB sdl : Nat} {q : Queue K}
    {size : Nat} {d : Disk} {u : Unit} {q' : Queue K} {size' : Nat}
    {d' : Disk}
    (h : cleanupLoop maxB sdl q size d = (Except.ok u, q', size', d')) :
    ∃ n, n ≤ q.length ∧ q' = q.drop n ∧
      size' = size - sumSizes (q.take n) ∧
      (∀ j, j < n → maxB < size - sumSizes (q.take j)) ∧
      (∀ p ∈ q.take n, diskGet d' p.2.id = none) ∧
      (∀ i, (∀ p ∈ q.take n, ¬ p.2.id = i) →
        diskGet d' i = diskGet d i) := by
  induction q generalizing size d with
  | nil =>
    simp only [cleanupLoop] at h
    by_cases hs : size ≤ maxB
    · rw [if_pos hs] at h
      simp only [Prod.mk.injEq] at h
      obtain ⟨-, h2, h3, h4⟩ := h
      refine ⟨0, by simp, by simp [h2.symm], by simp [sumSizes_nil, h3.symm],
        by omega, by simp, by simp [h4]⟩
    · rw [if_neg hs] at h
      simp at h
  | cons p rest ih =>
    obtain ⟨k₀, e⟩ := p
    simp only [cleanupLoop] at h
    by_cases hs : size ≤ maxB
    · rw [if_pos hs] at h
      simp only [Prod.mk.injEq] at h
      obtain ⟨-, h2, h3, h4⟩ := h
      refine ⟨0, by simp, by simp [h2.symm], by simp [sumSizes_nil, h3.symm],
        by omega, by simp, by simp [h4]⟩
    · rw [if_neg hs] at h
      by_cases hsdl : sdl = 0
      · simp [hsdl] at h
      · rw [if_neg hsdl] at h
        rcases hd : diskGet d e.id with _ | bs
        · rw [hd] at h
          simp at h
        · rw [hd] at h
          obtain ⟨n, hlen, hdrop, hsize, hmin, hdel, hframe⟩ := ih h
          refine ⟨n + 1, by simpa using Nat.succ_le_succ hlen,
            by simpa using hdrop, ?_, ?_, ?_, ?_⟩
          · rw [hsize, List.take_succ_cons, sumSizes_cons, Nat.sub_sub]
          · intro j hj
            rcases j with _ | j'
            · simpa using Nat.lt_of_not_le hs
            · have := hmin j' (by omega)
              rw [List.take_succ_cons, sumSizes_pair, ← Nat.sub_sub]
              exact this
          · intro p hp
            rw [List.take_succ_cons] at hp
            rcases List.mem_cons.mp hp with rfl | hp'
            · by_cases hin : ∀ pp ∈ rest.take n, ¬ pp.2.id = e.id
              · rw [hframe e.id hin, diskGet_erase, if_pos rfl]
              · push_neg at hin
                obtain ⟨pp, hpp, hppid⟩ := hin
                have := hdel pp hpp
                rw [← hppid]
                exact this
            · exact hdel p hp'
          · intro i hi
            rw [List.take_succ_cons] at hi
            have hhead : ¬ e.id = i := hi (k₀, e) (List.mem_cons_self _ _)
            have htail : ∀ p ∈ rest.take n, ¬ p.2.id = i := fun p hp =>
              hi p (List.mem_cons_of_mem _ hp)
            rw [hframe i htail, diskGet_erase,
              if_neg (fun hh : i = e.id => hhead hh.symm)]

theorem cleanupLoop_inv_no_panic {K : Type} (maxB sdl : Nat) (q : Queue K)
    (size : Nat) (d : Disk) (hinv : size = sumSizes q) :
    (cleanupLoop maxB sdl q size d).1
      ≠ Except.error Outcome.panicUnwrapNone := by
  induction q generalizing size d with
  | nil =>
    subst hinv
    simp [cleanupLoop, sumSizes_nil]
  | cons p rest ih =>
    obtain ⟨k₀, e⟩ := p
    simp only [cleanupLoop]
    by_cases hs : size ≤ maxB
    · simp [hs]
    · rw [if_neg hs]
      by_cases hsdl : sdl = 0
      · simp [hsdl]
      · rw [if_neg hsdl]
        rcases hd : diskGet d e.id with _ | bs
        · simp
        · exact ih (size - e.size) (diskErase d e.id)
            (by rw [hinv, sumSizes_pair]; omega)

/-! ## Cleanup and put at the state level -/

theorem cleanup_ok_char {K : Type} {s1 : CacheState K} {u : Unit}
    {s2 : CacheState K} (h : cleanup s1 = (Except.ok u, s2)) :
    s2.config = s1.config ∧ s2.data_dir = s1.data_dir ∧
    s2.world.metaFile = s1.world.metaFile ∧
    s2.metadata.counter = s1.metadata.counter ∧
    s2.metadata.current_size ≤ s1.config.max_bytes ∧
    ∃ n, n ≤ s1.metadata.entries.length ∧
      s2.metadata.entries = s1.metadata.entries.drop n ∧
      s2.metadata.current_size
        = s1.metadata.current_size - sumSizes (s1.metadata.entries.take n) ∧
      (∀ j, j < n → s1.config.max_bytes
        < s1.metadata.current_size
            - sumSizes (s1.metadata.entries.take j)) ∧
      (∀ p ∈ s1.metadata.entries.take n,
        diskGet s2.world.disk p.2.id = none) ∧
      (∀ i, (∀ p ∈ s1.metadata.entries.take n, ¬ p.2.id = i) →
        diskGet s2.world.disk i = diskGet s1.world.disk i) := by
  unfold cleanup at h
  rcases hcl : cleanupLoop s1.config.max_bytes s1.config.subdirs_per_level
      s1.metadata.entries s1.metadata.current_size s1.world.disk
    with ⟨r, q', size', d'⟩
  rw [hcl] at h
  dsimp only at h
  simp only [Prod.mk.injEq] at h
  obtain ⟨hr, hs2⟩ := h
  subst hr
  subst hs2
  refine ⟨rfl, rfl, rfl, rfl, cleanupLoop_ok_le hcl, ?_⟩
  obtain ⟨n, hlen, hdrop, hsize, hmin, hdel, hframe⟩ :=
    cleanupLoop_ok_spec hcl
  exact ⟨n, hlen, hdrop, hsize, hmin, hdel, hframe⟩

theorem dataFilePath_ok_ne_zero {cfg : CacheConfig} {root : String}
    {i : Nat} {p : String} (h : dataFilePath cfg root i = Except.ok p) :
    ¬ cfg.subdirs_per_level = 0 := by
  intro h0
  simp [dataFilePath, h0] at h

theorem put_ok_char {K V : Type} [DecidableEq K] (c : Codec V) (k : K)
    (v : V) (s s' : CacheState K)
    (h : put c k v s = (Except.ok (), s')) :
    ∃ (old : Option CacheEntry) (rest : Queue K) (eid ctr : Nat)
      (u : Unit) (s2 : CacheState K),
      Queue.removeKey s.metadata.entries k = (old, rest) ∧
      (match old with
       | some entry => eid = entry.id ∧ ctr = s.metadata.counter
       | none => eid = s.metadata.counter ∧ ctr = s.metadata.counter + 1) ∧
      ¬ s.config.subdirs_per_level = 0 ∧
      cleanup
        { s with
          metadata :=
            { current_size := s.metadata.current_size + (c.enc v).length,
              counter := ctr,
              entries := Queue.insertTail rest k
                { size := (c.enc v).length, id := eid } },
          world :=
            { s.world with
              disk := diskSet s.world.disk eid (c.enc v) } }
        = (Except.ok u, s2) ∧
      s' = writeMetadata s2 := by
  unfold put at h
  rcases hrk : Queue.removeKey s.metadata.entries k with ⟨old, rest⟩
  rw [hrk] at h
  rcases old with _ | entry
  · dsimp only at h
    rcases hdf : dataFilePath s.config s.data_dir s.metadata.counter
      with o | pth
    · rw [hdf] at h
      simp at h
    · rw [hdf] at h
      dsimp only at h
      rcases hcl : cleanup
          { s with
            metadata :=
              { current_size := s.metadata.current_size + (c.enc v).length,
                counter := s.metadata.counter + 1,
                entries := Queue.insertTail rest k
                  { size := (c.enc v).length, id := s.metadata.counter } },
            world :=
              { s.world with
                disk := diskSet s.world.disk s.metadata.counter
                  (c.enc v) } }
        with ⟨r, s2⟩
      rw [hcl] at h
      rcases r with o | u
      · simp at h
      · simp only [Prod.mk.injEq, true_and] at h
        exact ⟨none, rest, s.metadata.counter, s.metadata.counter + 1, u, s2,
          rfl, ⟨rfl, rfl⟩, dataFilePath_ok_ne_zero hdf, hcl, h.symm⟩
  · dsimp only at h
    rcases hdf : dataFilePath s.config s.data_dir entry.id with o | pth
    · rw [hdf] at h
      simp at h
    · rw [hdf] at h
      dsimp only at h
      rcases hcl : cleanup
          { s with
            metadata :=
              { current_size := s.metadata.current_size + (c.enc v).length,
                counter := s.metadata.counter,
                entries := Queue.insertTail rest k
                  { size := (c.enc v).length, id := entry.id } },
            world :=
              { s.world with
                disk := diskSet s.world.disk entry.id (c.enc v) } }
        with ⟨r, s2⟩
      rw [hcl] at h
      rcases r with o | u
      · simp at h
      · simp only [Prod.mk.injEq, true_and] at h
        exact ⟨some entry, rest, entry.id, s.metadata.counter, u, s2,
          rfl, ⟨rfl, rfl⟩, dataFilePath_ok_ne_zero hdf, hcl, h.symm⟩

/-! ## Ledger membership and trace lemmas -/

theorem keys_nodup_mem_unique {K : Type} (q : Queue K) (k : K)
    (a b : CacheEntry) (hnd : (Queue.keys q).Nodup)
    (ha : (k, a) ∈ q) (hb : (k, b) ∈ q) : a = b := by
  induction q with
  | nil => simp at ha
  | cons p rest ih =>
    obtain ⟨k', e'⟩ := p
    simp only [Queue.keys, List.map_cons, List.nodup_cons] at hnd
    rcases List.mem_cons.mp ha with ha' | ha' <;>
      rcases List.mem_cons.mp hb with hb' | hb'
    · obtain ⟨-, ha2⟩ := Prod.mk.injEq _ _ _ _ ▸ ha'
      obtain ⟨-, hb2⟩ := Prod.mk.injEq _ _ _ _ ▸ hb'
      rw [ha2, hb2]
    · obtain ⟨ha1, -⟩ := Prod.mk.injEq _ _ _ _ ▸ ha'
      exact absurd (ha1 ▸ List.mem_map_of_mem Prod.fst hb') hnd.1
    · obtain ⟨hb1, -⟩ := Prod.mk.injEq _ _ _ _ ▸ hb'
      exact absurd (hb1 ▸ List.mem_map_of_mem Prod.fst ha') hnd.1
    · exact ih hnd.2 ha' hb'

theorem mem_keys_of_mem {K : Type} {q : Queue K} {k : K} {e : CacheEntry}
    (h : (k, e) ∈ q) : k ∈ Queue.keys q :=
  List.mem_map_of_mem Prod.fst h

theorem exists_of_mem_keys {K : Type} {q : Queue K} {k : K}
    (h : k ∈ Queue.keys q) : ∃ e, (k, e) ∈ q := by
  obtain ⟨p, hp, hpk⟩ := List.mem_map.mp h
  exact ⟨p.2, by rw [← hpk]; exact hp⟩

theorem removeKey_pair_mem {K : Type} [DecidableEq K] (q : Queue K)
    (k₀ k : K) (e : CacheEntry) {r : Option CacheEntry} {rest : Queue K}
    (h : Queue.removeKey q k₀ = (r, rest)) (hke : (k, e) ∈ q)
    (hkk : ¬ k = k₀) : (k, e) ∈ rest := by
  rcases r with _ | e'
  · rw [removeKey_none_eq _ _ h]
    exact hke
  · obtain ⟨l₁, l₂, hq, hq', -⟩ := removeKey_some_eq _ _ h
    subst hq'
    rw [hq] at hke
    rcases List.mem_append.mp hke with h1 | h2
    · exact List.mem_append_left _ h1
    · rcases List.mem_cons.mp h2 with heq | h3
      · obtain ⟨h4, -⟩ := Prod.mk.injEq _ _ _ _ ▸ heq
        exact absurd h4 hkk
      · exact List.mem_append_right _ h3

theorem removeKey_rest_facts {K : Type} [DecidableEq K] (q : Queue K)
    (k₀ : K) {r : Option CacheEntry} {rest : Queue K}
    (h : Queue.removeKey q k₀ = (r, rest))
    (hknd : (Queue.keys q).Nodup) (hind : (Queue.ids q).Nodup) :
    (Queue.keys rest).Nodup ∧ (Queue.ids rest).Nodup ∧
      (∀ p ∈ rest, p ∈ q) ∧ k₀ ∉ Queue.keys rest := by
  rcases r with _ | e'
  · have heq := removeKey_none_eq _ _ h
    subst heq
    exact ⟨hknd, hind, fun p hp => hp, removeKey_none_not_mem _ _ h⟩
  · obtain ⟨l₁, l₂, hq, hq', -⟩ := removeKey_some_eq _ _ h
    subst hq'
    rw [hq] at hknd hind
    simp only [Queue.keys, List.map_append, List.map_cons] at hknd
    simp only [Queue.ids, List.map_append, List.map_cons] at hind
    have hk := List.nodup_cons.mp (List.nodup_middle.mp hknd)
    have hi := List.nodup_cons.mp (List.nodup_middle.mp hind)
    refine ⟨by simpa [Queue.keys] using hk.2, by simpa [Queue.ids] using hi.2,
      fun p hp => ?_, by simpa [Queue.keys] using hk.1⟩
    rw [hq]
    rcases List.mem_append.mp hp with h1 | h2
    · exact List.mem_append_left _ h1
    · exact List.mem_append_right _ (List.mem_cons_of_mem _ h2)

theorem cleanupLoop_any_spec {K : Type} {maxB sdl : Nat} {q : Queue K}
    {size : Nat} {d : Disk} {r : Except Outcome Unit} {q' : Queue K}
    {size' : Nat} {d' : Disk}
    (h : cleanupLoop maxB sdl q size d = (r, q', size', d')) :
    ∃ n, n ≤ q.length ∧ q' = q.drop n ∧
      (∀ i, (∀ p ∈ q.take n, ¬ p.2.id = i) →
        diskGet d' i = diskGet d i) := by
  induction q generalizing size d with
  | nil =>
    simp only [cleanupLoop] at h
    by_cases hs : size ≤ maxB <;>
      simp only [hs, if_true, if_false, Prod.mk.injEq] at h
    · exact ⟨0, by simp, h.2.1.symm, by simp [h.2.2.2]⟩
    · exact ⟨0, by simp, h.2.1.symm, by simp [h.2.2.2]⟩
  | cons p rest ih =>
    obtain ⟨k₀, e⟩ := p
    simp only [cleanupLoop] at h
    by_cases hs : size ≤ maxB
    · rw [if_pos hs] at h
      simp only [Prod.mk.injEq] at h
      exact ⟨0, by simp, h.2.1.symm, by simp [h.2.2.2]⟩
    · rw [if_neg hs] at h
      by_cases hsdl : sdl = 0
      · rw [if_pos hsdl] at h
        simp only [Prod.mk.injEq] at h
        refine ⟨1, by simp, by simp [h.2.1.symm], ?_⟩
        intro i _
        rw [h.2.2.2]
      · rw [if_neg hsdl] at h
        rcases hd : diskGet d e.id with _ | bs
        · rw [hd] at h
          simp only [Prod.mk.injEq] at h
          refine ⟨1, by simp, by simp [h.2.1.symm], ?_⟩
          intro i _
          rw [h.2.2.2]
        · rw [hd] at h
          obtain ⟨n, hlen, hdrop, hframe⟩ := ih h
          refine ⟨n + 1, by simpa using Nat.succ_le_succ hlen,
            by simpa using hdrop, ?_⟩
          intro i hi
          rw [List.take_succ_cons] at hi
          have hhead : ¬ e.id = i := hi (k₀, e) (List.mem_cons_self _ _)
          have htail : ∀ p ∈ rest.take n, ¬ p.2.id = i := fun p hp =>
            hi p (List.mem_cons_of_mem _ hp)
          rw [hframe i htail, diskGet_erase,
            if_neg (fun hh : i = e.id => hhead hh.symm)]

theorem cleanup_any_char {K : Type} {s1 : CacheState K}
    {r : Except Outcome Unit} {s2 : CacheState K}
    (h : cleanup s1 = (r, s2)) :
    s2.config = s1.config ∧ s2.data_dir = s1.data_dir ∧
    s2.world.metaFile = s1.world.metaFile ∧
    s2.metadata.counter = s1.metadata.counter ∧
    ∃ n, n ≤ s1.metadata.entries.length ∧
      s2.metadata.entries = s1.metadata.entries.drop n ∧
      (∀ i, (∀ p ∈ s1.metadata.entries.take n, ¬ p.2.id = i) →
        diskGet s2.world.disk i = diskGet s1.world.disk i) := by
  unfold cleanup at h
  rcases hcl : cleanupLoop s1.config.max_bytes s1.config.subdirs_per_level
      s1.metadata.entries s1.metadata.current_size s1.world.disk
    with ⟨r0, q', size', d'⟩
  rw [hcl] at h
  dsimp only at h
  simp only [Prod.mk.injEq] at h
  obtain ⟨-, hs2⟩ := h
  subst hs2
  obtain ⟨n, hlen, hdrop, hframe⟩ := cleanupLoop_any_spec hcl
  exact ⟨rfl, rfl, rfl, rfl, n, hlen, hdrop, hframe⟩

theorem ids_take_of_mem_drop {K : Type} (l : Queue K) (n : Nat)
    (hind : (Queue.ids l).Nodup) (k : K) (e : CacheEntry)
    (hmem : (k, e) ∈ l.drop n) :
    ∀ p ∈ l.take n, ¬ p.2.id = e.id := by
  intro p hp hpe
  have hl : l.take n ++ l.drop n = l := List.take_append_drop n l
  rw [← hl] at hind
  simp only [Queue.ids, List.map_append] at hind
  have hdisj := (List.nodup_append.mp hind).2.2
  have h1 : p.2.id ∈ (l.take n).map (fun p => p.2.id) :=
    List.mem_map_of_mem _ hp
  have h2 : e.id ∈ (l.drop n).map (fun p => p.2.id) := by
    have := List.mem_map_of_mem (fun p : K × CacheEntry => p.2.id) hmem
    simpa using this
  exact hdisj h1 (hpe ▸ h2)

theorem nodup_queue_drop {K : Type} (l : Queue K) (n : Nat)
    (hknd : (Queue.keys l).Nodup) (hind : (Queue.ids l).Nodup) :
    (Queue.keys (l.drop n)).Nodup ∧ (Queue.ids (l.drop n)).Nodup := by
  constructor
  · have : Queue.keys (l.drop n) = (Queue.keys l).drop n := by
      simp [Queue.keys, List.map_drop]
    rw [this]
    exact List.Nodup.sublist (List.drop_sublist n _) hknd
  · have : Queue.ids (l.drop n) = (Queue.ids l).drop n := by
      simp [Queue.ids, List.map_drop]
    rw [this]
    exact List.Nodup.sublist (List.drop_sublist n _) hind

theorem nodup_queue_snoc {K : Type} (l : Queue K) (k₀ : K)
    (e₀ : CacheEntry) (hknd : (Queue.keys l).Nodup)
    (hind : (Queue.ids l).Nodup) (hk0 : k₀ ∉ Queue.keys l)
    (hfresh : ∀ p ∈ l, ¬ p.2.id = e₀.id) :
    (Queue.keys (l ++ [(k₀, e₀)])).Nodup ∧
      (Queue.ids (l ++ [(k₀, e₀)])).Nodup := by
  constructor
  · have : Queue.keys (l ++ [(k₀, e₀)])
        = Queue.keys l ++ k₀ :: [] := by simp [Queue.keys]
    rw [this, List.nodup_middle]
    simp only [List.append_nil, List.nodup_cons]
    exact ⟨hk0, hknd⟩
  · have : Queue.ids (l ++ [(k₀, e₀)])
        = Queue.ids l ++ e₀.id :: [] := by simp [Queue.ids]
    rw [this, List.nodup_middle]
    simp only [List.append_nil, List.nodup_cons]
    refine ⟨fun hin => ?_, hind⟩
    have hin' : ∃ a b, (a, b) ∈ l ∧ b.id = e₀.id := by
      simpa [Queue.ids] using hin
    obtain ⟨a, b, hab, hbe⟩ := hin'
    exact hfresh (a, b) hab hbe

theorem put_core_char {K : Type} [DecidableEq K] (s : CacheState K)
    (rest : Queue K) (k₀ : K) (bs : List Nat) (eid₀ ctr : Nat)
    {r : Except Outcome Unit} {s2 : CacheState K}
    (hknd : (Queue.keys rest).Nodup) (hind : (Queue.ids rest).Nodup)
    (hltr : ∀ p ∈ rest, p.2.id < ctr) (heid : eid₀ < ctr)
    (hk0 : k₀ ∉ Queue.keys rest)
    (hfresh : ∀ p ∈ rest, ¬ p.2.id = eid₀)
    (hcl : cleanup
        { s with
          metadata :=
            { current_size := s.metadata.current_size + bs.length,
              counter := ctr,
              entries := rest ++ [(k₀, CacheEntry.mk bs.length eid₀)] },
          world := { s.world with disk := diskSet s.world.disk eid₀ bs } }
        = (r, s2)) :
    s2.config = s.config ∧ WF s2.metadata ∧
    (∀ (k : K) (e : CacheEntry), ¬ k = k₀ → (k, e) ∈ rest →
      k ∈ Queue.keys s2.metadata.entries →
      (k, e) ∈ s2.metadata.entries ∧
        diskGet s2.world.disk e.id = diskGet s.world.disk e.id) ∧
    (∀ p ∈ s2.metadata.entries, p ∈ rest ∨ p.1 = k₀) ∧
    (k₀ ∈ Queue.keys s2.metadata.entries →
      (k₀, CacheEntry.mk bs.length eid₀) ∈ s2.metadata.entries ∧
        diskGet s2.world.disk eid₀ = some bs) := by
  obtain ⟨hcfg, -, -, hctr, n, hlen, hdrop, hframe⟩ := cleanup_any_char hcl
  have hLk := nodup_queue_snoc rest k₀ (CacheEntry.mk bs.length eid₀)
    hknd hind hk0 hfresh
  have hent2 : s2.metadata.entries
      = (rest ++ [(k₀, CacheEntry.mk bs.length eid₀)]).drop n := hdrop
  have hdisk2 : ∀ i,
      (∀ p ∈ (rest ++ [(k₀, CacheEntry.mk bs.length eid₀)]).take n,
        ¬ p.2.id = i) →
      diskGet s2.world.disk i
        = diskGet (diskSet s.world.disk eid₀ bs) i := hframe
  have hsubL : ∀ p ∈ s2.metadata.entries,
      p ∈ rest ++ [(k₀, CacheEntry.mk bs.length eid₀)] := by
    rw [hent2]
    exact fun p hp => List.drop_subset n _ hp
  have hsub : ∀ p ∈ s2.metadata.entries, p ∈ rest ∨ p.1 = k₀ := by
    intro p hp
    rcases List.mem_append.mp (hsubL p hp) with h1 | h2
    · exact Or.inl h1
    · right
      rcases List.mem_cons.mp h2 with heq | h3
      · rw [heq]
      · simp at h3
  have hwf2 : WF s2.metadata := by
    obtain ⟨hk2, hi2⟩ := nodup_queue_drop _ n hLk.1 hLk.2
    refine ⟨by rw [hent2]; exact hk2, by rw [hent2]; exact hi2, ?_⟩
    intro p hp
    rw [hctr]
    rcases hsub p hp with h1 | h2
    · exact hltr p h1
    · rcases List.mem_append.mp (hsubL p hp) with h3 | h4
      · exact hltr p h3
      · rcases List.mem_cons.mp h4 with heq | h5
        · rw [heq]
          exact heid
        · simp at h5
  refine ⟨hcfg, hwf2, ?_, hsub, ?_⟩
  · intro k e hkk hke hkmem
    have hkeL : (k, e) ∈ rest ++ [(k₀, CacheEntry.mk bs.length eid₀)] :=
      List.mem_append_left _ hke
    obtain ⟨e', he'⟩ := exists_of_mem_keys hkmem
    have heq : e' = e :=
      keys_nodup_mem_unique _ k e' e hLk.1 (hsubL _ he') hkeL
    subst heq
    refine ⟨he', ?_⟩
    have hdropmem : (k, e')
        ∈ (rest ++ [(k₀, CacheEntry.mk bs.length eid₀)]).drop n := by
      rw [← hent2]
      exact he'
    have hfr := ids_take_of_mem_drop _ n hLk.2 k e' hdropmem
    rw [hdisk2 e'.id hfr, diskGet_set,
      if_neg (fun hh : e'.id = eid₀ => hfresh (k, e') hke hh)]
  · intro hk0mem
    have hmkL : (k₀, CacheEntry.mk bs.length eid₀)
        ∈ rest ++ [(k₀, CacheEntry.mk bs.length eid₀)] :=
      List.mem_append_right _ (List.mem_cons_self _ _)
    obtain ⟨e', he'⟩ := exists_of_mem_keys hk0mem
    have heq : e' = CacheEntry.mk bs.length eid₀ :=
      keys_nodup_mem_unique _ k₀ e' _ hLk.1 (hsubL _ he') hmkL
    subst heq
    refine ⟨he', ?_⟩
    have hdropmem : (k₀, CacheEntry.mk bs.length eid₀)
        ∈ (rest ++ [(k₀, CacheEntry.mk bs.length eid₀)]).drop n := by
      rw [← hent2]
      exact he'
    have hfr := ids_take_of_mem_drop _ n hLk.2 k₀ _ hdropmem
    rw [hdisk2 eid₀ hfr, diskGet_set, if_pos rfl]

theorem put_state_char {K V : Type} [DecidableEq K] (c : Codec V)
    (k₀ : K) (w : V) (s : CacheState K) (hwf : WF s.metadata)
    (res : Except Outcome Unit) (t : CacheState K)
    (hput : put c k₀ w s = (res, t)) :
    t.config = s.config ∧ WF t.metadata ∧
    (∀ (k : K) (e : CacheEntry), ¬ k = k₀ → (k, e) ∈ s.metadata.entries →
      k ∈ Queue.keys t.metadata.entries →
      (k, e) ∈ t.metadata.entries ∧
        diskGet t.world.disk e.id = diskGet s.world.disk e.id) ∧
    (∀ p ∈ t.metadata.entries, p ∈ s.metadata.entries ∨ p.1 = k₀) ∧
    (res = Except.ok () → k₀ ∈ Queue.keys t.metadata.entries →
      ∃ e₀, (k₀, e₀) ∈ t.metadata.entries ∧
        diskGet t.world.disk e₀.id = some (c.enc w)) := by
  obtain ⟨hknd, hind, hlt⟩ := hwf
  unfold put at hput
  rcases hrk : Queue.removeKey s.metadata.entries k₀ with ⟨old, rest⟩
  rw [hrk] at hput
  obtain ⟨hknd', hind', hmem0, hk0⟩ := removeKey_rest_facts _ _ hrk hknd hind
  rcases old with _ | entry
  · dsimp only at hput
    have hltr : ∀ p ∈ rest, p.2.id < s.metadata.counter + 1 := fun p hp =>
      Nat.lt_succ_of_lt (hlt p (hmem0 p hp))
    have heid : s.metadata.counter < s.metadata.counter + 1 :=
      Nat.lt_succ_self _
    have hfresh : ∀ p ∈ rest, ¬ p.2.id = s.metadata.counter := by
      intro p hp hpe
      have := hlt p (hmem0 p hp)
      omega
    rcases hdf : dataFilePath s.config s.data_dir s.metadata.counter
      with o | pth
    · rw [hdf] at hput
      dsimp only at hput
      simp only [Prod.mk.injEq] at hput
      obtain ⟨hres, ht⟩ := hput
      subst ht
      refine ⟨rfl, ⟨hknd', hind', fun p hp => hltr p hp⟩, ?_, ?_, ?_⟩
      · intro k e hkk hke hkmem
        exact ⟨removeKey_pair_mem _ _ _ _ hrk hke hkk, rfl⟩
      · intro p hp
        exact Or.inl (hmem0 p hp)
      · intro habs
        rw [← hres] at habs
        simp at habs
    · rw [hdf] at hput
      dsimp only at hput
      have hins : Queue.insertTail rest k₀
          (CacheEntry.mk (c.enc w).length s.metadata.counter)
          = rest
            ++ [(k₀, CacheEntry.mk (c.enc w).length s.metadata.counter)] := by
        unfold Queue.insertTail
        rw [removeKey_not_mem _ _ hk0]
      rw [hins] at hput
      rcases hcl : cleanup
          { s with
            metadata :=
              { current_size := s.metadata.current_size + (c.enc w).length,
                counter := s.metadata.counter + 1,
                entries := rest
                  ++ [(k₀,
                      CacheEntry.mk (c.enc w).length s.metadata.counter)] },
            world :=
              { s.world with
                disk := diskSet s.world.disk s.metadata.counter
                  (c.enc w) } }
        with ⟨r0, s2⟩
      rw [hcl] at hput
      obtain ⟨hcfg2, hwf2, hpres2, hsub2, hself2⟩ :=
        put_core_char s rest k₀ (c.enc w) s.metadata.counter
          (s.metadata.counter + 1) hknd' hind' hltr heid hk0 hfresh hcl
      rcases r0 with o | u
      · simp only [Prod.mk.injEq] at hput
        obtain ⟨hres, ht⟩ := hput
        subst ht
        refine ⟨hcfg2, hwf2, ?_, ?_, ?_⟩
        · intro k e hkk hke hkmem
          exact hpres2 k e hkk (removeKey_pair_mem _ _ _ _ hrk hke hkk) hkmem
        · intro p hp
          rcases hsub2 p hp with h1 | h2
          · exact Or.inl (hmem0 p h1)
          · exact Or.inr h2
        · intro habs
          rw [← hres] at habs
          simp at habs
      · simp only [Prod.mk.injEq] at hput
        obtain ⟨hres, ht⟩ := hput
        subst ht
        refine ⟨hcfg2, hwf2, ?_, ?_, ?_⟩
        · intro k e hkk hke hkmem
          exact hpres2 k e hkk (removeKey_pair_mem _ _ _ _ hrk hke hkk) hkmem
        · intro p hp
          rcases hsub2 p hp with h1 | h2
          · exact Or.inl (hmem0 p h1)
          · exact Or.inr h2
        · intro _ hk0mem
          obtain ⟨hm, hd⟩ := hself2 hk0mem
          exact ⟨CacheEntry.mk (c.enc w).length s.metadata.counter, hm, hd⟩
  · dsimp only at hput
    obtain ⟨l₁, l₂, hq, hq', -⟩ := removeKey_some_eq _ _ hrk
    have hmemE : (k₀, entry) ∈ s.metadata.entries := by
      rw [hq]
      exact List.mem_append_right _ (List.mem_cons_self _ _)
    have heid : entry.id < s.metadata.counter := hlt _ hmemE
    have hltr : ∀ p ∈ rest, p.2.id < s.metadata.counter := fun p hp =>
      hlt p (hmem0 p hp)
    have hfresh : ∀ p ∈ rest, ¬ p.2.id = entry.id := by
      intro p hp hpe
      have h2 : (Queue.ids (l₁ ++ (k₀, entry) :: l₂)).Nodup := hq ▸ hind
      simp only [Queue.ids, List.map_append, List.map_cons] at h2
      have h3 := (List.nodup_cons.mp (List.nodup_middle.mp h2)).1
      apply h3
      have hp' : p ∈ l₁ ++ l₂ := hq' ▸ hp
      have hmm : p.2.id ∈ (l₁ ++ l₂).map (fun p => p.2.id) :=
        List.mem_map_of_mem _ hp'
      rw [← hpe]
      simpa using hmm
    rcases hdf : dataFilePath s.config s.data_dir entry.id with o | pth
    · rw [hdf] at hput
      dsimp only at hput
      simp only [Prod.mk.injEq] at hput
      obtain ⟨hres, ht⟩ := hput
      subst ht
      refine ⟨rfl, ⟨hknd', hind', fun p hp => hltr p hp⟩, ?_, ?_, ?_⟩
      · intro k e hkk hke hkmem
        exact ⟨removeKey_pair_mem _ _ _ _ hrk hke hkk, rfl⟩
      · intro p hp
        exact Or.inl (hmem0 p hp)
      · intro habs
        rw [← hres] at habs
        simp at habs
    · rw [hdf] at hput
      dsimp only at hput
      have hins : Queue.insertTail rest k₀
          (CacheEntry.mk (c.enc w).length entry.id)
          = rest ++ [(k₀, CacheEntry.mk (c.enc w).length entry.id)] := by
        unfold Queue.insertTail
        rw [removeKey_not_mem _ _ hk0]
      rw [hins] at hput
      rcases hcl : cleanup
          { s with
            metadata :=
              { current_size := s.metadata.current_size + (c.enc w).length,
                counter := s.metadata.counter,
                entries := rest
                  ++ [(k₀, CacheEntry.mk (c.enc w).length entry.id)] },
            world :=
              { s.world with
                disk := diskSet s.world.disk entry.id (c.enc w) } }
        with ⟨r0, s2⟩
      rw [hcl] at hput
      obtain ⟨hcfg2, hwf2, hpres2, hsub2, hself2⟩ :=
        put_core_char s rest k₀ (c.enc w) entry.id s.metadata.counter
          hknd' hind' hltr heid hk0 hfresh hcl
      rcases r0 with o | u
      · simp only [Prod.mk.injEq] at hput
        obtain ⟨hres, ht⟩ := hput
        subst ht
        refine ⟨hcfg2, hwf2, ?_, ?_, ?_⟩
        · intro k e hkk hke hkmem
          exact hpres2 k e hkk (removeKey_pair_mem _ _ _ _ hrk hke hkk) hkmem
        · intro p hp
          rcases hsub2 p hp with h1 | h2
          · exact Or.inl (hmem0 p h1)
          · exact Or.inr h2
        · intro habs
          rw [← hres] at habs
          simp at habs
      · simp only [Prod.mk.injEq] at hput
        obtain ⟨hres, ht⟩ := hput
        subst ht
        refine ⟨hcfg2, hwf2, ?_, ?_, ?_⟩
        · intro k e hkk hke hkmem
          exact hpres2 k e hkk (removeKey_pair_mem _ _ _ _ hrk hke hkk) hkmem
        · intro p hp
          rcases hsub2 p hp with h1 | h2
          · exact Or.inl (hmem0 p h1)
          · exact Or.inr h2
        · intro _ hk0mem
          obtain ⟨hm, hd⟩ := hself2 hk0mem
          exact ⟨CacheEntry.mk (c.enc w).length entry.id, hm, hd⟩

theorem get_fail_leaf_char {K : Type} (s : CacheState K) (k₀ : K)
    (rest : Queue K) (hknd' : (Queue.keys rest).Nodup)
    (hind' : (Queue.ids rest).Nodup)
    (hmem0 : ∀ p ∈ rest, p ∈ s.metadata.entries)
    (hk0 : k₀ ∉ Queue.keys rest)
    (hlt : ∀ p ∈ s.metadata.entries, p.2.id < s.metadata.counter)
    (hpres : ∀ (k : K) (e : CacheEntry), ¬ k = k₀ →
      (k, e) ∈ s.metadata.entries → (k, e) ∈ rest) :
    ({ s with metadata := { s.metadata with entries := rest } }
        : CacheState K).config = s.config ∧
    ({ s with metadata := { s.metadata with entries := rest } }
        : CacheState K).world.disk = s.world.disk ∧
    WF ({ s with metadata := { s.metadata with entries := rest } }
        : CacheState K).metadata ∧
    (∀ (k : K) (e : CacheEntry), ¬ k = k₀ → (k, e) ∈ s.metadata.entries →
      (k, e) ∈ ({ s with metadata :=
        { s.metadata with entries := rest } } : CacheState K).metadata.entries) ∧
    (∀ p ∈ ({ s with metadata :=
        { s.metadata with entries := rest } } : CacheState K).metadata.entries,
      p ∈ s.metadata.entries) ∧
    (∀ e, (k₀, e) ∈ s.metadata.entries →
      k₀ ∈ Queue.keys ({ s with metadata :=
        { s.metadata with entries := rest } } : CacheState K).metadata.entries →
      (k₀, e) ∈ ({ s with metadata :=
        { s.metadata with entries := rest } } : CacheState K).metadata.entries) :=
  ⟨rfl, rfl, ⟨hknd', hind', fun p hp => hlt p (hmem0 p hp)⟩,
    fun k e hkk hke => hpres k e hkk hke,
    fun p hp => hmem0 p hp,
    fun e hke hkm => absurd hkm hk0⟩

theorem get_state_char {K V : Type} [DecidableEq K] (c : Codec V)
    (k₀ : K) (s : CacheState K) (hwf : WF s.metadata)
    (res : Except Outcome (Option V)) (t : CacheState K)
    (hget : get c k₀ s = (res, t)) :
    t.config = s.config ∧ t.world.disk = s.world.disk ∧ WF t.metadata ∧
    (∀ (k : K) (e : CacheEntry), ¬ k = k₀ → (k, e) ∈ s.metadata.entries →
      (k, e) ∈ t.metadata.entries) ∧
    (∀ p ∈ t.metadata.entries, p ∈ s.metadata.entries) ∧
    (∀ e, (k₀, e) ∈ s.metadata.entries →
      k₀ ∈ Queue.keys t.metadata.entries →
      (k₀, e) ∈ t.metadata.entries) := by
  obtain ⟨hknd, hind, hlt⟩ := hwf
  unfold get at hget
  rcases hrk : Queue.removeKey s.metadata.entries k₀ with ⟨r0, rest⟩
  rw [hrk] at hget
  rcases r0 with _ | item
  · dsimp only at hget
    simp only [Prod.mk.injEq] at hget
    obtain ⟨-, ht⟩ := hget
    subst ht
    exact ⟨rfl, rfl, ⟨hknd, hind, hlt⟩, fun k e _ hke => hke,
      fun p hp => hp, fun e hke _ => hke⟩
  · obtain ⟨hknd', hind', hmem0, hk0⟩ := removeKey_rest_facts _ _ hrk hknd hind
    obtain ⟨l₁, l₂, hq, hq', -⟩ := removeKey_some_eq _ _ hrk
    have hmemI : (k₀, item) ∈ s.metadata.entries := by
      rw [hq]
      exact List.mem_append_right _ (List.mem_cons_self _ _)
    have hpres0 : ∀ (k : K) (e : CacheEntry), ¬ k = k₀ →
        (k, e) ∈ s.metadata.entries → (k, e) ∈ rest := fun k e hkk hke =>
      removeKey_pair_mem _ _ _ _ hrk hke hkk
    dsimp only at hget
    rcases hdf : dataFilePath s.config s.data_dir item.id with o | pth
    · rw [hdf] at hget
      dsimp only at hget
      simp only [Prod.mk.injEq] at hget
      obtain ⟨-, ht⟩ := hget
      subst ht
      exact get_fail_leaf_char s k₀ rest hknd' hind' hmem0 hk0 hlt hpres0
    · rw [hdf] at hget
      dsimp only at hget
      rcases hd : diskGet s.world.disk item.id with _ | bs
      · rw [hd] at hget
        simp only [Prod.mk.injEq] at hget
        obtain ⟨-, ht⟩ := hget
        subst ht
        exact get_fail_leaf_char s k₀ rest hknd' hind' hmem0 hk0 hlt hpres0
      · rw [hd] at hget
        dsimp only at hget
        rcases hdec : c.dec bs with _ | v0
        · rw [hdec] at hget
          simp only [Prod.mk.injEq] at hget
          obtain ⟨-, ht⟩ := hget
          subst ht
          exact get_fail_leaf_char s k₀ rest hknd' hind' hmem0 hk0 hlt hpres0
        · rw [hdec] at hget
          dsimp only at hget
          simp only [Prod.mk.injEq] at hget
          obtain ⟨-, ht⟩ := hget
          subst ht
          have hins : Queue.insertTail rest k₀ item
              = rest ++ [(k₀, item)] := by
            unfold Queue.insertTail
            rw [removeKey_not_mem _ _ hk0]
          have hfresh : ∀ p ∈ rest, ¬ p.2.id = item.id := by
            intro p hp hpe
            have h2 : (Queue.ids (l₁ ++ (k₀, item) :: l₂)).Nodup :=
              hq ▸ hind
            simp only [Queue.ids, List.map_append, List.map_cons] at h2
            have h3 := (List.nodup_cons.mp (List.nodup_middle.mp h2)).1
            apply h3
            have hp' : p ∈ l₁ ++ l₂ := hq' ▸ hp
            have hmm :=
              List.mem_map_of_mem (fun p : K × CacheEntry => p.2.id) hp'
            rw [← hpe]
            simpa using hmm
          have hnodups := nodup_queue_snoc rest k₀ item hknd' hind' hk0 hfresh
          dsimp only [writeMetadata]
          rw [hins]
          refine ⟨rfl, rfl, ⟨hnodups.1, hnodups.2, ?_⟩, ?_, ?_, ?_⟩
          · intro p hp
            rcases List.mem_append.mp hp with h1 | h2
            · exact hlt p (hmem0 p h1)
            · rcases List.mem_cons.mp h2 with heq | h3
              · rw [heq]
                exact hlt _ hmemI
              · simp at h3
          · intro k e hkk hke
            exact List.mem_append_left _ (hpres0 k e hkk hke)
          · intro p hp
            rcases List.mem_append.mp hp with h1 | h2
            · exact hmem0 p h1
            · rcases List.mem_cons.mp h2 with heq | h3
              · rw [heq]
                exact hmemI
              · simp at h3
          · intro e hke _
            have heq : e = item :=
              keys_nodup_mem_unique _ k₀ e item hknd hke hmemI
            rw [heq]
            exact List.mem_append_right _ (List.mem_cons_self _ _)

theorem applyOp_step {K V : Type} [DecidableEq K] (c : Codec V) (k : K)
    (v : V) (op : Op K V) (hop : ∀ w : V, ¬ op = Op.put k w)
    (s : CacheState K) (hwf : WF s.metadata)
    (htr : k ∈ Queue.keys s.metadata.entries → tracks c k v s) :
    (applyOp c op s).config = s.config ∧ WF (applyOp c op s).metadata ∧
      (k ∈ Queue.keys (applyOp c op s).metadata.entries →
        tracks c k v (applyOp c op s)) := by
  cases op with
  | put k₀ w =>
    dsimp only [applyOp]
    have hkk : ¬ k = k₀ := by
      intro hh
      exact hop w (by rw [hh])
    obtain ⟨hcfg, hwf2, hpres, hsub, -⟩ :=
      put_state_char c k₀ w s hwf (put c k₀ w s).1 (put c k₀ w s).2 rfl
    refine ⟨hcfg, hwf2, ?_⟩
    intro hkmem
    obtain ⟨e', he'⟩ := exists_of_mem_keys hkmem
    rcases hsub _ he' with h1 | h2
    · have hkS : k ∈ Queue.keys s.metadata.entries := mem_keys_of_mem h1
      obtain ⟨e, hme, hde⟩ := htr hkS
      obtain ⟨hm2, hd2⟩ := hpres k e hkk hme hkmem
      exact ⟨e, hm2, by rw [hd2]; exact hde⟩
    · exact absurd h2 hkk
  | get k₀ =>
    dsimp only [applyOp]
    obtain ⟨hcfg, hdisk, hwf2, hpres, hsub, hself⟩ :=
      get_state_char c k₀ s hwf (get c k₀ s).1 (get c k₀ s).2 rfl
    refine ⟨hcfg, hwf2, ?_⟩
    intro hkmem
    obtain ⟨e', he'⟩ := exists_of_mem_keys hkmem
    have hkS : k ∈ Queue.keys s.metadata.entries :=
      mem_keys_of_mem (hsub _ he')
    obtain ⟨e, hme, hde⟩ := htr hkS
    by_cases hkk : k = k₀
    · subst hkk
      exact ⟨e, hself e hme hkmem, by rw [hdisk]; exact hde⟩
    · exact ⟨e, hpres k e hkk hme, by rw [hdisk]; exact hde⟩

theorem runOps_preserves {K V : Type} [DecidableEq K] (c : Codec V)
    (k : K) (v : V) (ops : List (Op K V))
    (hops : ∀ o ∈ ops, ∀ w : V, ¬ o = Op.put k w)
    (s : CacheState K) (hwf : WF s.metadata)
    (htr : k ∈ Queue.keys s.metadata.entries → tracks c k v s) :
    (runOps c ops s).config = s.config ∧ WF (runOps c ops s).metadata ∧
      (k ∈ Queue.keys (runOps c ops s).metadata.entries →
        tracks c k v (runOps c ops s)) := by
  induction ops generalizing s with
  | nil => exact ⟨rfl, hwf, htr⟩
  | cons op rest ih =>
    have hstep := applyOp_step c k v op
      (hops op (List.mem_cons_self _ _)) s hwf htr
    have hrest := ih (fun o ho w => hops o (List.mem_cons_of_mem _ ho) w)
      (applyOp c op s) hstep.2.1 hstep.2.2
    exact ⟨hrest.1.trans hstep.1, hrest.2.1, hrest.2.2⟩

theorem get_tracks_ok {K V : Type} [DecidableEq K] (c : Codec V)
    (hc : ∀ x : V, c.dec (c.enc x) = some x) (k : K) (v : V)
    (t : CacheState K) (hknd : (Queue.keys t.metadata.entries).Nodup)
    (htr : tracks c k v t)
    (hsdl : ¬ t.config.subdirs_per_level = 0) :
    (get c k t).1 = Except.ok (some v) := by
  obtain ⟨e, hme, hde⟩ := htr
  rcases hrk : Queue.removeKey t.metadata.entries k with ⟨r0, rest⟩
  rcases r0 with _ | e'
  · exact absurd (mem_keys_of_mem hme) (removeKey_none_not_mem _ _ hrk)
  · obtain ⟨l₁, l₂, hq, hq', -⟩ := removeKey_some_eq _ _ hrk
    have hmemI : (k, e') ∈ t.metadata.entries := by
      rw [hq]
      exact List.mem_append_right _ (List.mem_cons_self _ _)
    have heq : e' = e := keys_nodup_mem_unique _ k e' e hknd hmemI hme
    subst heq
    have hdf : dataFilePath t.config t.data_dir e'.id
        = Except.ok (specDataFilePath t.data_dir t.config.subdirs_per_level
            t.config.encoding.fileExt e'.id) := by
      simp [dataFilePath, specDataFilePath, hsdl]
    unfold get
    rw [hrk]
    dsimp only
    rw [hdf]
    dsimp only
    rw [hde]
    dsimp only
    rw [hc v]

/-! ## Claim theorems -/

/-- C1 (code_bug evaluation): `put` on a key that already has a live
entry of size 10 with a new payload of 3 bytes completes successfully
and leaves a single ledger entry of size 3, but `current_size` ends at
13 = 10 + 3: the source adds the new size unconditionally (lib.rs line
142) and never subtracts the removed old entry's size, so the old size
stays counted in `current_size`, contradicting the claimed delta
adjustment. -/
theorem put_overwrite_leaks_old_size :
    (put natCodec 1 3 (put natCodec 1 10 (emptyState cfg100)).2).1
        = Except.ok () ∧
      ((put natCodec 1 3
          (put natCodec 1 10 (emptyState cfg100)).2).2).metadata.entries
        = [(1, { size := 3, id := 0 })] ∧
      ((put natCodec 1 3
          (put natCodec 1 10 (emptyState cfg100)).2).2).metadata.current_size
        = 13 := by
  decide

/-- C2 (code_bug evaluation): the §3 invariant `current_size = sum of
live entry sizes` holds for the freshly initialized ledger and is
preserved by a `put` of a fresh key, but a completed `put` on an
existing key breaks it (here: current_size 7 against a live-entry sum
of 2), because the overwrite path of `put` never subtracts the replaced
entry's size. -/
theorem sizeInv_broken_by_overwrite :
    sizeInv (emptyState cfg100).metadata ∧
      sizeInv ((put natCodec 2 5 (emptyState cfg100)).2).metadata ∧
      ¬ sizeInv ((put natCodec 2 2
          (put natCodec 2 5 (emptyState cfg100)).2).2).metadata := by
  decide

/-- C3 (confirmed): whenever `put` returns Ok, the resulting
`current_size` is at most the configured `max_bytes`: the `cleanup`
loop that `put` runs before persisting exits normally only once
`current_size ≤ max_bytes`, and the final metadata write does not
change it. -/
theorem put_ok_le_max_bytes {K V : Type} [DecidableEq K] (c : Codec V)
    (k : K) (v : V) (s s' : CacheState K)
    (h : put c k v s = (Except.ok (), s')) :
    s'.metadata.current_size ≤ s.config.max_bytes := by
  obtain ⟨old, rest, eid, ctr, u, s2, hrk, hid, hsdl, hcl, hs'⟩ :=
    put_ok_char c k v s s' h
  obtain ⟨hcfg, -, -, -, hle, -⟩ := cleanup_ok_char hcl
  subst hs'
  simpa [writeMetadata] using hle

/-- Witness for C3: a concrete successful `put` into an empty cache
with budget 10 ends with `current_size ≤ 10`. -/
theorem put_ok_le_max_bytes_witness :
    put natCodec 1 4 (emptyState cfg3)
        = (Except.ok (), (put natCodec 1 4 (emptyState cfg3)).2) ∧
      ((put natCodec 1 4 (emptyState cfg3)).2).metadata.current_size
        ≤ (emptyState cfg3).config.max_bytes :=
  ⟨by decide,
    put_ok_le_max_bytes natCodec 1 4 (emptyState cfg3)
      (put natCodec 1 4 (emptyState cfg3)).2 (by decide)⟩

/-- C4 (confirmed): in `cleanup`, `remove_head` is reached only under
the loop guard `current_size > max_bytes`; starting from any state
satisfying the §3 size invariant, the guard implies the queue is
non-empty at every such call, so the `unwrap` in lib.rs line 187 never
sees None — modelled as: cleanup never produces the unwrap-panic
outcome from an invariant-satisfying state. -/
theorem cleanup_never_unwraps_none {K : Type} [DecidableEq K]
    (s : CacheState K) (hinv : sizeInv s.metadata) :
    (cleanup s).1 ≠ Except.error Outcome.panicUnwrapNone := by
  have h := cleanupLoop_inv_no_panic s.config.max_bytes
    s.config.subdirs_per_level s.metadata.entries
    s.metadata.current_size s.world.disk hinv
  unfold cleanup
  rcases hcl : cleanupLoop s.config.max_bytes s.config.subdirs_per_level
      s.metadata.entries s.metadata.current_size s.world.disk
    with ⟨r, q', size', d'⟩
  rw [hcl] at h
  simpa using h

/-- Witness for C4: a concrete invariant-satisfying state (one 4-byte
entry, current_size 4) on which cleanup does not hit the unwrap
panic. -/
theorem cleanup_never_unwraps_none_witness :
    sizeInv ((put natCodec 1 4 (emptyState cfg3)).2).metadata ∧
      (cleanup (put natCodec 1 4 (emptyState cfg3)).2).1
        ≠ Except.error Outcome.panicUnwrapNone :=
  ⟨by decide,
    cleanup_never_unwraps_none (put natCodec 1 4 (emptyState cfg3)).2
      (by decide)⟩

/-- C5 (code_bug evaluation): a configuration with
`subdirs_per_level = 0` is NOT rejected at construction time —
`initialize` performs no validation and returns a cache instance — and
every later data-file path computation performs the remainder-by-zero
of lib.rs line 167 (a Rust panic), contradicting the claimed
construction-time rejection. -/
theorem init_accepts_zero_subdirs :
    initCache cfg0 ("root") ({ metaFile := none, disk := [] } : World Nat)
        = Except.ok (emptyState cfg0) ∧
      ∀ i : Nat,
        dataFilePath cfg0 ("root") i = Except.error Outcome.panicDivZero :=
  ⟨rfl, fun _ => rfl⟩

/-- C9 (confirmed): for every configuration with
`subdirs_per_level ≥ 1`, the payload path computed by `data_file_path`
is exactly the §4.3 rule `root/(id mod S)/((id div S) mod S)/
data_{id}.{extension}` with the configured encoding's extension tag;
being a pure function of (root, S, encoding, id), the same id always
yields the same path for a fixed configuration. -/
theorem data_file_path_matches_spec (cfg : CacheConfig) (root : String)
    (id : Nat) (h : 1 ≤ cfg.subdirs_per_level) :
    dataFilePath cfg root id
      = Except.ok (specDataFilePath root cfg.subdirs_per_level
          cfg.encoding.fileExt id) := by
  have h0 : ¬ cfg.subdirs_per_level = 0 := by omega
  simp [dataFilePath, specDataFilePath, h0]

/-- Witness for C9: with S = 3 and the json encoding, entry id 7 maps
to root/1/2/data_7.json. -/
theorem data_file_path_matches_spec_witness :
    1 ≤ cfg3.subdirs_per_level ∧
      dataFilePath cfg3 ("root") 7
        = Except.ok (specDataFilePath ("root") cfg3.subdirs_per_level
            cfg3.encoding.fileExt 7) :=
  ⟨by decide, data_file_path_matches_spec cfg3 ("root") 7 (by decide)⟩

theorem writeChunks_run {σ : Type} (w : Sink σ) (cs : List (List Nat))
    (st : σ) (c0 : Nat) :
    writeChunks w cs { state := st, counter := c0 }
      = (sinkRunTotal w cs st c0).map
          (fun p => { state := p.1, counter := p.2 }) := by
  induction cs generalizing st c0 with
  | nil => simp [writeChunks, sinkRunTotal]
  | cons c rest ih =>
    simp only [writeChunks, sinkRunTotal, WriteCounter.write]
    rcases hw : w.write st c with _ | p
    · simp [hw]
    · obtain ⟨s', len⟩ := p
      simpa [hw] using ih s' (c0 + len)

/-- C6 (confirmed): for every sink and every serializer write sequence,
`serialize` — which wraps the sink in the byte-counting `WriteCounter`
adapter and threads each write through it, never pre-buffering the
whole serialization — returns exactly the number of bytes the
underlying sink actually accepted (the sum of the counts the sink
itself reported), together with the sink's final state; both encodings
dispatch through this same wrapping in src/src/encoding.rs. -/
theorem serialize_reports_sink_bytes {σ : Type} (w : Sink σ)
    (chunks : List (List Nat)) (s : σ) :
    serializeCount w chunks s = sinkRunTotal w chunks s 0 := by
  unfold serializeCount WriteCounter.new
  rw [writeChunks_run]
  rcases htot : sinkRunTotal w chunks s 0 with _ | p
  · simp
  · simp

/-- C7 (confirmed): when `cleanup` completes normally it has removed
exactly a prefix of the ledger (the n least-recently
inserted-or-accessed entries, taken from the head in ledger order),
each removal happened only while `current_size` still exceeded
`max_bytes`, every evicted entry's backing data file has been deleted
from disk, and no other data file was touched. -/
theorem cleanup_evicts_prefix_in_order {K : Type} [DecidableEq K]
    (s s' : CacheState K) (u : Unit)
    (h : cleanup s = (Except.ok u, s')) :
    ∃ n, n ≤ s.metadata.entries.length ∧
      s'.metadata.entries = s.metadata.entries.drop n ∧
      (∀ j, j < n → s.config.max_bytes
        < s.metadata.current_size
            - sumSizes (s.metadata.entries.take j)) ∧
      (∀ p ∈ s.metadata.entries.take n,
        diskGet s'.world.disk p.2.id = none) ∧
      (∀ i, (∀ p ∈ s.metadata.entries.take n, ¬ p.2.id = i) →
        diskGet s'.world.disk i = diskGet s.world.disk i) := by
  obtain ⟨-, -, -, -, -, n, hlen, hdrop, -, hmin, hdel, hframe⟩ :=
    cleanup_ok_char h
  exact ⟨n, hlen, hdrop, hmin, hdel, hframe⟩

/-- Witness for C7: on the concrete over-budget state `sOver`
(17 > 10), cleanup returns Ok and the eviction-prefix description
holds. -/
theorem cleanup_evicts_prefix_in_order_witness :
    cleanup sOver = (Except.ok (), (cleanup sOver).2) ∧
      ∃ n, n ≤ sOver.metadata.entries.length ∧
        ((cleanup sOver).2).metadata.entries
          = sOver.metadata.entries.drop n ∧
        (∀ j, j < n → sOver.config.max_bytes
          < sOver.metadata.current_size
              - sumSizes (sOver.metadata.entries.take j)) ∧
        (∀ p ∈ sOver.metadata.entries.take n,
          diskGet ((cleanup sOver).2).world.disk p.2.id = none) ∧
        (∀ i, (∀ p ∈ sOver.metadata.entries.take n, ¬ p.2.id = i) →
          diskGet ((cleanup sOver).2).world.disk i
            = diskGet sOver.world.disk i) :=
  ⟨by decide,
    cleanup_evicts_prefix_in_order sOver (cleanup sOver).2 () (by decide)⟩

/-- C8 (confirmed): under the §4.1 codec round-trip contract (which
both the binary and the text encoding must satisfy), a key/value
written by a successful `put` and not evicted by any intervening
operation is returned by a subsequent `get` with exactly the value
that was put; and `get` of a key absent from the ledger returns
Ok(None), not an error.  Intervening operations are an arbitrary
sequence of public calls — `put`s of other keys and `get`s of any
keys — each threading the state it leaves behind even when it
fails, as through `&mut self`.  "Not evicted by any intervening
operation" is the hypothesis that the key is still in the ledger
after the sequence: only a `put` of the same key could re-insert it
once gone, and such puts are excluded (they would overwrite the
value), so presence at the end is equivalent to never having been
evicted in between.  The `WF` hypothesis captures well-formedness of
reachable ledgers: distinct keys, distinct entry ids, ids below the
allocation counter. -/
theorem put_get_roundtrip {K V : Type} [DecidableEq K] (c : Codec V)
    (hc : ∀ x : V, c.dec (c.enc x) = some x) (k : K) (v : V)
    (s s' : CacheState K) (hwf : WF s.metadata)
    (hput : put c k v s = (Except.ok (), s'))
    (ops : List (Op K V))
    (hops : ∀ o ∈ ops, ∀ w : V, ¬ o = Op.put k w)
    (hmem : k ∈ Queue.keys (runOps c ops s').metadata.entries) :
    (get c k (runOps c ops s')).1 = Except.ok (some v) ∧
      ∀ t : CacheState K, k ∉ Queue.keys t.metadata.entries →
        get c k t = (Except.ok none, t) := by
  refine ⟨?_, fun t ht => by simp [get, removeKey_not_mem _ _ ht]⟩
  obtain ⟨o1, r1, e1, c1, u1, s21, hrk1, hid1, hsdl, hcl1, hs1⟩ :=
    put_ok_char c k v s s' hput
  obtain ⟨hcfg', hwf', hpres', hsub', hself'⟩ :=
    put_state_char c k v s hwf (Except.ok ()) s' hput
  have htr' : k ∈ Queue.keys s'.metadata.entries → tracks c k v s' := by
    intro hkmem
    obtain ⟨e₀, he₀, hd₀⟩ := hself' rfl hkmem
    exact ⟨e₀, he₀, hd₀⟩
  obtain ⟨hcfgR, hwfR, htrR⟩ := runOps_preserves c k v ops hops s' hwf' htr'
  exact get_tracks_ok c hc k v _ hwfR.1 (htrR hmem)
    (by rw [hcfgR, hcfg']; exact hsdl)

/-- Witness for C8: put value 3 at key 5 into an empty cache, run the
intervening operations put(6, 2), get(5), get(7), and a final `get 5`
still returns Ok(Some 3); `get` of an absent key is Ok(None). -/
theorem put_get_roundtrip_witness :
    (∀ x : Nat, natCodec.dec (natCodec.enc x) = some x) ∧
      WF (emptyState cfg3).metadata ∧
      put natCodec 5 3 (emptyState cfg3)
        = (Except.ok (), (put natCodec 5 3 (emptyState cfg3)).2) ∧
      (∀ o ∈ ([Op.put 6 2, Op.get 5, Op.get 7] : List (Op Nat Nat)),
        ∀ w : Nat, ¬ o = Op.put 5 w) ∧
      5 ∈ Queue.keys
        (runOps natCodec [Op.put 6 2, Op.get 5, Op.get 7]
          (put natCodec 5 3 (emptyState cfg3)).2).metadata.entries ∧
      ((get natCodec 5
          (runOps natCodec [Op.put 6 2, Op.get 5, Op.get 7]
            (put natCodec 5 3 (emptyState cfg3)).2)).1
          = Except.ok (some 3) ∧
        ∀ t : CacheState Nat, 5 ∉ Queue.keys t.metadata.entries →
          get natCodec 5 t = (Except.ok none, t)) :=
  ⟨fun x => by simp [natCodec], by decide, by decide,
    by
      intro o ho w
      simp only [List.mem_cons, List.not_mem_nil, or_false] at ho
      rcases ho with rfl | rfl | rfl <;> simp,
    by decide,
    put_get_roundtrip natCodec (fun x => by simp [natCodec]) 5 3
      (emptyState cfg3) (put natCodec 5 3 (emptyState cfg3)).2
      (by decide) (by decide) [Op.put 6 2, Op.get 5, Op.get 7]
      (by
        intro o ho w
        simp only [List.mem_cons, List.not_mem_nil, or_false] at ho
        rcases ho with rfl | rfl | rfl <;> simp)
      (by decide)⟩

/-- C10 (confirmed): when `get` finds the key in the ledger but the
data-file open or the payload decode then fails, it returns the error
with the key already removed from the in-memory ledger
(`remove_key` ran before the failing step and nothing re-inserts it),
while `current_size` is left unchanged — still counting the lost
entry's size — and the on-disk world, in particular the persisted
ledger file, is not rewritten; hence a later `initialize` against the
same directory loads a ledger that still contains the key. -/
theorem get_read_failure_frame {K V : Type} [DecidableEq K] (c : Codec V)
    (k : K) (s : CacheState K) (item : CacheEntry) (rest : Queue K)
    (hrk : Queue.removeKey s.metadata.entries k = (some item, rest))
    (hsdl : ¬ s.config.subdirs_per_level = 0)
    (hfail : Option.bind (diskGet s.world.disk item.id) c.dec = none) :
    (∃ err : CacheError,
      get c k s = (Except.error (Outcome.cacheErr err),
        { s with metadata := { s.metadata with entries := rest } })) ∧
      ((get c k s).2).metadata.entries = rest ∧
      ((get c k s).2).metadata.current_size = s.metadata.current_size ∧
      ((get c k s).2).world = s.world ∧
      ∀ (g : CacheConfig) (r : String) (m : Metadata K),
        s.world.metaFile = some m → k ∈ Queue.keys m.entries →
        ∃ t : CacheState K,
          initCache g r ((get c k s).2).world = Except.ok t ∧
            k ∈ Queue.keys t.metadata.entries := by
  have hdf : dataFilePath s.config s.data_dir item.id
      = Except.ok (specDataFilePath s.data_dir s.config.subdirs_per_level
          s.config.encoding.fileExt item.id) := by
    simp [dataFilePath, specDataFilePath, hsdl]
  have hget : ∃ err : CacheError,
      get c k s = (Except.error (Outcome.cacheErr err),
        { s with metadata := { s.metadata with entries := rest } }) := by
    rcases hd : diskGet s.world.disk item.id with _ | bs
    · refine ⟨CacheError.readCacheFile, ?_⟩
      unfold get
      rw [hrk]
      dsimp only
      rw [hdf]
      dsimp only
      rw [hd]
    · rw [hd] at hfail
      change c.dec bs = none at hfail
      refine ⟨CacheError.deserializeValue, ?_⟩
      unfold get
      rw [hrk]
      dsimp only
      rw [hdf]
      dsimp only
      rw [hd]
      dsimp only
      rw [hfail]
  obtain ⟨err, hget'⟩ := hget
  refine ⟨⟨err, hget'⟩, by rw [hget'], by rw [hget'], by rw [hget'],
    fun g r m hm hk => ?_⟩
  rw [hget']
  exact ⟨{ config := g, metadata := m, data_dir := r, world := s.world },
    by simp [initCache, hm], hk⟩

/-- Witness for C10: on the concrete state `sBroken` (key 9 tracked in
the ledger and in the persisted ledger file, but its data file absent
from disk), `get 9` errors, drops the key from the in-memory ledger
only, leaves `current_size` and the on-disk world untouched, and a
re-initialization still sees key 9. -/
theorem get_read_failure_frame_witness :
    Queue.removeKey sBroken.metadata.entries 9
        = (some { size := 4, id := 2 }, []) ∧
      ¬ sBroken.config.subdirs_per_level = 0 ∧
      Option.bind (diskGet sBroken.world.disk 2) natCodec.dec = none ∧
      ((∃ err : CacheError,
        get natCodec 9 sBroken = (Except.error (Outcome.cacheErr err),
          { sBroken with metadata :=
              { sBroken.metadata with entries := [] } })) ∧
        ((get natCodec 9 sBroken).2).metadata.entries = [] ∧
        ((get natCodec 9 sBroken).2).metadata.current_size
          = sBroken.metadata.current_size ∧
        ((get natCodec 9 sBroken).2).world = sBroken.world ∧
        ∀ (g : CacheConfig) (r : String) (m : Metadata Nat),
          sBroken.world.metaFile = some m → 9 ∈ Queue.keys m.entries →
          ∃ t : CacheState Nat,
            initCache g r ((get natCodec 9 sBroken).2).world
                = Except.ok t ∧
              9 ∈ Queue.keys t.metadata.entries) :=
  ⟨by decide, by decide, by decide,
    get_read_failure_frame natCodec 9 sBroken { size := 4, id := 2 } []
      (by decide) (by decide) (by decide)⟩

end SimpleDiskCache
